import Mathlib

/-!
Verification of the numeric-attribute-to-ontology-property matcher
(`src/numeric_attr_extension_to_ontology_property_rust/src/main.rs`).

Modelling conventions, shared by every definition below:
* Rust `f64` values are embedded as exact rationals `ℚ` (the spec's "real-valued"
  semantics).  Where a claim hinges on genuine IEEE-754 behaviour (division by
  zero, `0 * inf = NaN`, `f64::max` ignoring `NaN`, `partial_cmp` returning
  `None` on `NaN`) a dedicated value type (`F`, `FVal`) models exactly those
  rules.
* Rust `String`s are embedded as `List Char` (`Str`), so that the byte-level
  splitting and prefix-stripping done by the program is modelled faithfully.
* The `HashMap`s are embedded as association lists with overwrite-on-insert
  (`insertA`), matching `HashMap::insert` semantics; iteration order is the
  list order.
* Iterators/loops with mutable state become explicit recursion; the merge
  iterator of `merge` (main.rs:29-61) carries a fuel argument equal to the
  total input length, which bounds its loop exactly as the Rust `while` is
  bounded by the two indices reaching the list ends.
-/

/-- Rust `String` / `&str`, modelled as its character list. -/
abbrev Str := List Char

/-- `pat.is_prefix_of s` for character lists: does `s` start with `pat`?
(Model of Rust `str::starts_with`.) -/
def startsList : Str → Str → Bool
  | [], _ => true
  | _ :: _, [] => false
  | a :: as_, b :: bs => a = b && startsList as_ bs

/-- Model of Rust `str::ends_with`. -/
def endsList (pat s : Str) : Bool := startsList pat.reverse s.reverse

/-- Model of Rust `str::strip_prefix(pat).unwrap_or(s)`: drop `pat` from the
front when present, otherwise return `s` unchanged. -/
def dropLead (pat s : Str) : Str := if startsList pat s then s.drop pat.length else s

/-- Model of Rust `str::strip_suffix(pat).unwrap_or(s)`. -/
def dropTrail (pat s : Str) : Str :=
  if endsList pat s then s.dropLast.take (s.length - pat.length) else s

/-- Does the string contain character `c`?  (Rust `str::contains(char)`.) -/
def hasCh (c : Char) (s : Str) : Bool := s.any (fun d => decide (d = c))

/-- Does `s` contain `pat` as a contiguous substring?
(Rust `str::contains(&str)`, used for the `22-rdf-syntax-ns#type` check.) -/
def hasSub (pat : Str) : Str → Bool
  | [] => startsList pat []
  | s@(_ :: rest) => startsList pat s || hasSub pat rest

/-- Model of Rust `str::split(sep)` for a one-character separator: the list of
pieces between occurrences of `sep`; always non-empty. -/
def splitChar (sep : Char) : Str → List Str
  | [] => [[]]
  | c :: rest =>
    if c = sep then [] :: splitChar sep rest
    else
      match splitChar sep rest with
      | [] => [[c]]
      | h :: t => (c :: h) :: t

/-- Model of Rust `str::split(", ")`, the separator used by the cache's
bracketed value lists (main.rs:92). -/
def splitCS : Str → List Str
  | [] => [[]]
  | [c] => [[c]]
  | c1 :: c2 :: rest =>
    if c1 = ',' ∧ c2 = ' ' then [] :: splitCS rest
    else
      match splitCS (c2 :: rest) with
      | [] => [[c1]]
      | h :: t => (c1 :: h) :: t

/-- Join strings with the `", "` separator (the rendering side of the cache's
`{:?}` vector format). -/
def joinCS : List Str → Str
  | [] => []
  | [s] => s
  | s :: rest => s ++ ',' :: ' ' :: joinCS rest

/-- Rust `f64::max` restricted to (finite) rationals (main.rs:81). -/
def fmax (a b : ℚ) : ℚ := if a ≤ b then b else a

/-- Rust `f64::abs` restricted to (finite) rationals (main.rs:83). -/
def fabs (a : ℚ) : ℚ := if a < 0 then -a else a

/-- The loop body of `merge` (main.rs:40-59), on the unconsumed suffixes
`s1`, `s2` of the two sorted lists.  `i1`, `i2` are the Rust `index1`,
`index2` (number of elements consumed so far), and the result collects every
`(x, index1, index2)` the iterator yields.  `fuel` bounds the recursion; each
step consumes at least one element, so fuel = total length is enough. -/
def mergeFuel : ℕ → List ℚ → List ℚ → ℕ → ℕ → List (ℚ × ℕ × ℕ)
  | 0, _, _, _, _ => []
  | _ + 1, [], [], _, _ => []
  | fuel + 1, [], b :: s2, i1, i2 =>
    let t2 := (b :: s2).dropWhile (fun y => decide (y = b))
    let j2 := i2 + ((b :: s2).length - t2.length)
    (b, i1, j2) :: mergeFuel fuel [] t2 i1 j2
  | fuel + 1, a :: s1, [], i1, i2 =>
    let t1 := (a :: s1).dropWhile (fun y => decide (y = a))
    let j1 := i1 + ((a :: s1).length - t1.length)
    (a, j1, i2) :: mergeFuel fuel t1 [] j1 i2
  | fuel + 1, a :: s1, b :: s2, i1, i2 =>
    let x := min a b
    let t1 := (a :: s1).dropWhile (fun y => decide (y = x))
    let t2 := (b :: s2).dropWhile (fun y => decide (y = x))
    let j1 := i1 + ((a :: s1).length - t1.length)
    let j2 := i2 + ((b :: s2).length - t2.length)
    (x, j1, j2) :: mergeFuel fuel t1 t2 j1 j2

/-- `merge(sorted_list_1, sorted_list_2)` (main.rs:29-61), materialised as the
list of `(x, index1, index2)` triples the iterator yields. -/
def mergeKS (l1 l2 : List ℚ) : List (ℚ × ℕ × ℕ) :=
  mergeFuel (l1.length + l2.length) l1 l2 0 0

/-- The body of `ks` (main.rs:74-86) once its second argument is already
sorted: the running maximum of
`|index1 * (1/len1) - index2 * (1/len2)|` over the merged thresholds. -/
def ksScore (bag1 bag2 : List ℚ) : ℚ :=
  let oneOverLen1 : ℚ := 1 / (bag1.length : ℚ)
  let oneOverLen2 : ℚ := 1 / (bag2.length : ℚ)
  (mergeKS bag1 bag2).foldl
    (fun acc t =>
      fmax acc (fabs ((t.2.1 : ℚ) * oneOverLen1 - (t.2.2 : ℚ) * oneOverLen2)))
    0

/-- Model of `Vec::sort_by(|a, b| a.partial_cmp(b).unwrap())` on values that
admit a total order (no `NaN`): the ascending sorted permutation. -/
def sortQ (l : List ℚ) : List ℚ := l.insertionSort (· ≤ ·)

/-- `ks(sorted_bag, unsorted_bag)` (main.rs:69-87).  The Rust function first
sorts `unsorted_bag` in place; the pair returned here is (the returned score,
the state of `unsorted_bag` after the call). -/
def ks (sorted_bag : List ℚ) (unsorted_bag : List ℚ) : ℚ × List ℚ :=
  let b := sortQ unsorted_bag
  (ksScore sorted_bag b, b)

/-- One entry of `dbpedia_type_and_property_to_ks_test_sorted`
(main.rs:359-361): ((type, property), (KS score, matched list)). -/
abbrev RankedEntry := (Str × Str) × (ℚ × List ℚ)

/-- The KS-computation step of `main` (main.rs:340, 348-355): sort the input
bag, then map every `((type, property), extension)` of the index to
`((type, property), (ks(&bag, &mut extension), extension))`, where the stored
extension is the post-`ks` (i.e. sorted) state of the vector. -/
def rank (bag : List ℚ) (index : List ((Str × Str) × List ℚ)) : List RankedEntry :=
  let sorted_bag := sortQ bag
  index.map (fun e => (e.1, ks sorted_bag e.2))

/-- Sequence a list of fallible computations (`Option`-valued `map`): `none`
as soon as one element fails. -/
def mapOpt {α β : Type} (f : α → Option β) : List α → Option (List β)
  | [] => some []
  | x :: xs => do
    let y ← f x
    let ys ← mapOpt f xs
    pure (y :: ys)

/-- The top-k output loop of `main` (main.rs:370-383):
`for i in 0..k.min(sorted.iter().take(k).len())` followed by an index access
`sorted[i]`.  The index access is modelled by `l[i]?`, so an out-of-bounds
access (a Rust panic) would surface as `none`. -/
def topK (ranked : List RankedEntry) (k : ℕ) : Option (List RankedEntry) :=
  let bound := min k (List.length (List.take k ranked))
  mapOpt (fun i => ranked[i]?) (List.range bound)

/-- Result of processing one `--compare-with` pattern (main.rs:388-434): either
the per-pattern `[ERROR] ... contains no ':'` report, or the sub-list of
ranked entries the pattern's branch prints. -/
inductive FilterResult where
  | err (pat : Str)
  | matches (entries : List RankedEntry)
deriving DecidableEq

/-- The body of the `for compare_with in compare_withs` loop (main.rs:388-434):
four-way dispatch on the pattern.  `starts_with(":")` selects by property,
`ends_with(":")` selects by type, any other pattern containing `':'` selects
by the first two `split(":")` pieces, and a pattern with no `':'` is reported
as an error for that pattern only. -/
def filterOne (ranked : List RankedEntry) (pat : Str) : FilterResult :=
  if startsList [':'] pat then
    let propName := dropLead [':'] pat
    .matches (ranked.filter (fun e => decide (e.1.2 = propName)))
  else if endsList [':'] pat then
    let typeName := dropTrail [':'] pat
    .matches (ranked.filter (fun e => decide (e.1.1 = typeName)))
  else if hasCh ':' pat then
    let typeName := (splitChar ':' pat).getD 0 []
    let propName := (splitChar ':' pat).getD 1 []
    .matches (ranked.filter (fun e => decide (e.1.1 = typeName ∧ e.1.2 = propName)))
  else
    .err pat

/-- The whole `--compare-with` loop: each pattern is processed independently,
in order (main.rs:388). -/
def runCompareWith (ranked : List RankedEntry) (pats : List Str) : List FilterResult :=
  pats.map (filterOne ranked)

/-- An RDF triple as the types pass consumes it: the `node_to_string` forms of
subject, predicate and object (main.rs:243-261). -/
structure Triple where
  subject : Str
  predicate : Str
  object : Str
deriving DecidableEq

/-- `"22-rdf-syntax-ns#type"` (main.rs:244). -/
def typeMarker : Str := ("22-rdf-syntax-ns#type" : String).toList

/-- `"http://dbpedia.org/resource/"` (main.rs:249). -/
def resMarker : Str := ("http://dbpedia.org/resource/" : String).toList

/-- `"http://dbpedia.org/ontology/"` (main.rs:253). -/
def ontMarker : Str := ("http://dbpedia.org/ontology/" : String).toList

/-- Insert with overwrite: `HashMap::insert` (the map is modelled as an
association list whose key order is insertion order). -/
def insertA {K V : Type} [DecidableEq K] (m : List (K × V)) (k : K) (v : V) :
    List (K × V) :=
  if m.any (fun e => decide (e.1 = k)) then
    m.map (fun e => if e.1 = k then (k, v) else e)
  else m ++ [(k, v)]

/-- `HashMap` lookup on the association-list model. -/
def lookupA {K V : Type} [DecidableEq K] (m : List (K × V)) (k : K) : Option V :=
  (m.find? (fun e => decide (e.1 = k))).map (fun e => e.2)

/-- What one iteration of the types loop (main.rs:243-261) extracts from a
triple: `none` when the triple is skipped (predicate is not a type fact, or
the stripped type still contains `'/'`), otherwise the (resource, type) pair
that is inserted. -/
def extractType (t : Triple) : Option (Str × Str) :=
  if hasSub typeMarker t.predicate = false then none
  else
    let res := dropLead resMarker t.subject
    let ty := dropLead ontMarker t.object
    if hasCh '/' ty then none
    else some (res, ty)

/-- One iteration of the types loop: `dbpedia_resource_to_type.insert(...)`
or skip. -/
def typeStep (m : List (Str × Str)) (t : Triple) : List (Str × Str) :=
  match extractType t with
  | none => m
  | some (res, ty) => insertA m res ty

/-- The whole types pass (main.rs:243-261): fold the triples of the `--types`
graph, in iteration order, into `dbpedia_resource_to_type`. -/
def buildTypes (triples : List Triple) : List (Str × Str) :=
  triples.foldl typeStep []

/-- An `f64` with its special values: finite rationals plus `inf`, `-inf` and
`NaN`.  Used where a claim depends on genuine IEEE behaviour. -/
inductive F where
  | fin (q : ℚ)
  | inf
  | ninf
  | nan
deriving DecidableEq

/-- IEEE division, for the `1.0 / (len as f64)` computations (main.rs:74-75):
a positive finite number divided by `+0.0` is `+inf`. -/
def fdivF : F → F → F
  | .fin a, .fin b =>
    if b = 0 then (if a > 0 then .inf else if a < 0 then .ninf else .nan)
    else .fin (a / b)
  | .fin _, .inf => .fin 0
  | .fin _, .ninf => .fin 0
  | .inf, .fin b => if b < 0 then .ninf else .inf
  | .ninf, .fin b => if b < 0 then .inf else .ninf
  | _, _ => .nan

/-- IEEE multiplication, for `(index as f64) * one_over_len` (main.rs:82-83):
`0.0 * inf = NaN`. -/
def fmulF : F → F → F
  | .fin a, .fin b => .fin (a * b)
  | .fin a, .inf => if a > 0 then .inf else if a < 0 then .ninf else .nan
  | .inf, .fin a => if a > 0 then .inf else if a < 0 then .ninf else .nan
  | .fin a, .ninf => if a > 0 then .ninf else if a < 0 then .inf else .nan
  | .ninf, .fin a => if a > 0 then .ninf else if a < 0 then .inf else .nan
  | .inf, .inf => .inf
  | .ninf, .ninf => .inf
  | .inf, .ninf => .ninf
  | .ninf, .inf => .ninf
  | _, _ => .nan

/-- IEEE subtraction: `inf - inf = NaN`, `NaN` propagates. -/
def fsubF : F → F → F
  | .fin a, .fin b => .fin (a - b)
  | .fin _, .inf => .ninf
  | .fin _, .ninf => .inf
  | .inf, .fin _ => .inf
  | .ninf, .fin _ => .ninf
  | .inf, .ninf => .inf
  | .ninf, .inf => .ninf
  | _, _ => .nan

/-- IEEE `f64::abs`. -/
def fabsF : F → F
  | .fin a => .fin (fabs a)
  | .inf => .inf
  | .ninf => .inf
  | .nan => .nan

/-- Rust `f64::max`: "returns the maximum of the two numbers, ignoring NaN" —
if one argument is `NaN` the other is returned. -/
def fmaxF : F → F → F
  | .nan, b => b
  | a, .nan => a
  | .inf, _ => .inf
  | _, .inf => .inf
  | .ninf, b => b
  | a, .ninf => a
  | .fin a, .fin b => .fin (fmax a b)

/-- `ks` (main.rs:69-87) with its score arithmetic carried out in IEEE-style
`F` values instead of plain rationals.  The list elements themselves are
finite (`ℚ`), so the merge loop is the rational `mergeKS`; all special-value
behaviour of `ks` lives in the score arithmetic: `1.0 / 0.0 = inf` for an
empty bag, then `0 * inf = NaN` inside the difference, and `f64::max`
dropping the `NaN`. -/
def ksFloat (sorted_bag : List ℚ) (unsorted_bag : List ℚ) : F :=
  let b := sortQ unsorted_bag
  let oneOverLen1 := fdivF (.fin 1) (.fin (sorted_bag.length : ℚ))
  let oneOverLen2 := fdivF (.fin 1) (.fin (b.length : ℚ))
  (mergeKS sorted_bag b).foldl
    (fun acc t =>
      fmaxF acc (fabsF (fsubF (fmulF (.fin (t.2.1 : ℚ)) oneOverLen1)
                              (fmulF (.fin (t.2.2 : ℚ)) oneOverLen2))))
    (.fin 0)

/-- An `f64` input value as the sort comparators see it: `some q` is a finite
(non-`NaN`) value, `none` is `NaN`. -/
abbrev FVal := Option ℚ

/-- `a.partial_cmp(b)` on `f64`: `none` (Rust `None`) as soon as either side
is `NaN`.  The `.unwrap()` at the three call sites (main.rs:70, 340, 363)
panics exactly when this returns `none`. -/
def pcmpQ (a b : FVal) : Option Ordering :=
  match a, b with
  | some x, some y => some (compare x y)
  | _, _ => none

/-- Insert step of a comparison sort whose comparator can fail: `none` models
the panic of `partial_cmp(..).unwrap()` on a `NaN` comparison. -/
def insertByM {α : Type} (cmp : α → α → Option Ordering) (x : α) :
    List α → Option (List α)
  | [] => some [x]
  | y :: ys => do
    let o ← cmp x y
    match o with
    | .lt => some (x :: y :: ys)
    | _ => do
      let rest ← insertByM cmp x ys
      pure (y :: rest)

/-- Model of `Vec::sort_by(cmp)` with a fallible comparator: the sort
succeeds (returns `some`) exactly when no comparison it performs fails. -/
def sortByM {α : Type} (cmp : α → α → Option Ordering) : List α → Option (List α)
  | [] => some []
  | x :: xs => do
    let s ← sortByM cmp xs
    insertByM cmp x s

/-- The comparator of the final result sort (main.rs:362-364): compare two
ranked entries by their KS score, `partial_cmp(..).unwrap()`. -/
def scoreCmpQ (a b : (Str × Str) × (FVal × List FVal)) : Option Ordering :=
  pcmpQ a.2.1 b.2.1

/-- The character of the decimal digit `d ≤ 9`. -/
def digCh (d : ℕ) : Char := Char.ofNat (48 + d)

/-- Decimal rendering of a natural number (most significant digit first);
`0` renders as `"0"`. -/
def natStr (n : ℕ) : Str :=
  if n = 0 then ['0'] else ((Nat.digits 10 n).map digCh).reverse

/-- The smallest exponent `k ≤ d` with `d ∣ 10 ^ k`, or `0` when no such `k`
exists (i.e. the denominator is not a product of 2s and 5s — impossible for a
value that came from an `f64`). -/
def decExp (d : ℕ) : ℕ := ((List.range (d + 1)).find? (fun k => decide (d ∣ 10 ^ k))).getD 0

/-- `q` has a terminating decimal expansion (every binary-float value does). -/
def decOK (q : ℚ) : Prop := q.den ∣ 10 ^ decExp q.den

instance (q : ℚ) : Decidable (decOK q) := by unfold decOK; infer_instance

/-- The fractional digit block: `fp` padded with leading zeros to `k` digits;
for `k = 0` the single digit `"0"` (Rust prints integral floats as `"1.0"`). -/
def fracStr (k fp : ℕ) : Str :=
  if k = 0 then ['0'] else List.replicate (k - (natStr fp).length) '0' ++ natStr fp

/-- Model of Rust's `{:?}` / `{}` rendering of an `f64` (used by the cache
writer, main.rs:305): sign, integer digits, `'.'`, fractional digits.  The
exact rational value of the model stands for the float; Rust's
shortest-roundtrip guarantee is mirrored by rendering the exact terminating
decimal expansion. -/
def fmtNum (q : ℚ) : Str :=
  let k := decExp q.den
  let m := q.num.natAbs * 10 ^ k / q.den
  let body := natStr (m / 10 ^ k) ++ '.' :: fracStr k (m % 10 ^ k)
  if q < 0 then '-' :: body else body

/-- Decimal-digit run parser: `some` of the value of a non-empty all-digit
string, `none` otherwise (model of the digit part of `str::parse::<f64>`). -/
def parseDigits (s : Str) : Option ℕ :=
  if s = [] ∨ ¬ (s.all (fun c => c.isDigit)) then none
  else some (s.foldl (fun acc c => 10 * acc + (c.toNat - 48)) 0)

/-- Model of `str::parse::<f64>()` (main.rs:93) on the plain decimal forms the
cache contains: optional `'-'`, integer digits, optionally `'.'` and
fractional digits.  Exact (unrounded) value, matching the exact-rational
embedding of `f64`. -/
def parseUnsigned (t : Str) : Option ℚ :=
  match splitChar '.' t with
  | [ip] => (parseDigits ip).map (fun n => (n : ℚ))
  | [ip, fp] => do
    let i ← parseDigits ip
    let f ← parseDigits fp
    pure ((i : ℚ) + (f : ℚ) / 10 ^ fp.length)
  | _ => none

def parseNum (s : Str) : Option ℚ :=
  if s.head? = some '-' then (parseUnsigned s.tail).map (fun q => -q)
  else parseUnsigned s

/-- Rust's `format!("{:?}", vec)` for a `Vec<f64>` (main.rs:305): the values
rendered and joined with `", "`, in brackets. -/
def renderVec (l : List ℚ) : Str := '[' :: (joinCS (l.map fmtNum) ++ [']'])

/-- `parse_string_to_vector` (main.rs:89-96): strip the first and last
character, split on `", "`, parse every piece; `none` on any parse failure.
The Rust byte-slicing `s[1..s.len()-1]` panics when `s` has fewer than two
characters; that panic is also modelled as `none` (the caller's `expect`
turns both into the same fatal stop). -/
def parseStringToVector (s : Str) : Option (List ℚ) :=
  if s.length < 2 then none
  else mapOpt parseNum (splitCS (s.dropLast.drop 1))

/-- The `--output` writer (main.rs:297-311): one line per index entry,
`type TAB property TAB vector-debug-format`. -/
def saveLines (index : List ((Str × Str) × List ℚ)) : List Str :=
  index.map (fun e => e.1.1 ++ '\t' :: (e.1.2 ++ '\t' :: renderVec e.2))

/-- One iteration of the `--input` reader loop (main.rs:183-198): split the
line on TAB, take the first three pieces (the three `line_split.next()`
calls; `none` when a piece is missing, modelling the `expect`), parse the
vector, and insert into the map. -/
def loadLine (m : List ((Str × Str) × List ℚ)) (line : Str) :
    Option (List ((Str × Str) × List ℚ)) :=
  match splitChar '\t' line with
  | t :: p :: v :: _ => (parseStringToVector v).map (fun vec => insertA m (t, p) vec)
  | _ => none

/-- The `--input` reader loop, carrying the map state `m` across lines;
`none` models the fatal `expect` on a malformed line. -/
def loadLinesAux (m : List ((Str × Str) × List ℚ)) :
    List Str → Option (List ((Str × Str) × List ℚ))
  | [] => some m
  | line :: rest => do
    let m' ← loadLine m line
    loadLinesAux m' rest

/-- The whole `--input` reader (main.rs:180-198): fold the file's lines into
`dbpedia_type_and_property_to_extension`, starting from the empty map. -/
def loadLines (lines : List Str) : Option (List ((Str × Str) × List ℚ)) :=
  loadLinesAux [] lines

/-- The bytes the `--output` writer produces: every line followed by `'\n'`
(the `format!` string ends in `\n`, main.rs:305). -/
def saveFile (index : List ((Str × Str) × List ℚ)) : Str :=
  (saveLines index).foldr (fun line acc => line ++ '\n' :: acc) []

/-- `read_lines` (main.rs:451-455) composed with the reader: split the file
on `'\n'`; the final piece after the last newline is empty and is not a line,
hence `dropLast`. -/
def loadFile (file : Str) : Option (List ((Str × Str) × List ℚ)) :=
  loadLines ((splitChar '\n' file).dropLast)

section

set_option allowUnsafeReducibility true
attribute [local semireducible] Rat.mul Rat.add Rat.sub Rat.inv

/-- C1: the claim says `ks` fails with an input-validation error on an empty
sequence and never silently returns a numeric result such as 0.  The code
instead returns `0.0` silently: with an empty bag `1.0 / 0.0 = +inf`, the
difference terms become `0 * inf − … = NaN`, and `f64::max` ignores `NaN`,
so `max_difference` stays `0.0`.  This contradicts the function's own doc
comment (main.rs:66-68, "Throws a `ZeroDivisionError` when either of the
given bags/lists is empty!"): the code is the bug.  The theorem evaluates
the IEEE-faithful model at the failing inputs. -/
theorem C1_ks_empty_silent_zero :
    ksFloat [] [(1 : ℚ)] = F.fin 0 ∧
    ksFloat [(1 : ℚ)] [] = F.fin 0 ∧
    ksFloat [] [] = F.fin 0 := by
  refine ⟨by decide, by decide, by decide⟩

/-- C2: `ks([1,2,3], [2,3,4])` returns exactly `1/3`; the merge visits the
thresholds 1, 2, 3, 4 with indices (1,0), (2,1), (3,2), (3,3), i.e.
cumulative-fraction differences 1/3, 1/3, 1/3, 0, and the running maximum is
1/3. -/
theorem C2_ks_one_third :
    mergeKS [1, 2, 3] [2, 3, 4] = [(1, 1, 0), (2, 2, 1), (3, 3, 2), (4, 3, 3)] ∧
    (ks [1, 2, 3] [2, 3, 4]).1 = 1 / 3 := by
  refine ⟨by decide, by decide⟩

end

lemma mapOpt_append {α β : Type} (f : α → Option β) (l1 l2 : List α) :
    mapOpt f (l1 ++ l2) =
      (do
        let xs ← mapOpt f l1
        let ys ← mapOpt f l2
        pure (xs ++ ys)) := by
  induction l1 with
  | nil => simp [mapOpt]
  | cons x xs ih =>
    simp only [List.cons_append, mapOpt, ih]
    cases hf : f x <;> cases h1 : mapOpt f xs <;> cases h2 : mapOpt f l2 <;>
      simp [ih, h1, h2]

lemma mapOpt_range_take {α : Type} (l : List α) (n : ℕ) (h : n ≤ l.length) :
    mapOpt (fun i => l[i]?) (List.range n) = some (l.take n) := by
  induction n with
  | zero => simp [mapOpt]
  | succ n ih =>
    rw [List.range_succ, mapOpt_append, ih (Nat.le_of_succ_le h)]
    have hn : n < l.length := h
    have h1 : mapOpt (fun i => l[i]?) [n] = some [l[n]] := by
      simp only [mapOpt, List.getElem?_eq_getElem hn]
      rfl
    rw [h1]
    simp only [Option.bind_some, Option.some_bind, List.take_succ,
      List.getElem?_eq_getElem hn]
    rfl

/-- C3: `topK` returns the first `min(k, length)` entries of the ranked list;
in particular when `k` exceeds the number of available results it returns the
whole list unmodified, and the index accesses of the output loop never go out
of bounds (the result is always `some`, never the `none` that would model a
panic). -/
theorem C3_topK_first_min (ranked : List RankedEntry) (k : ℕ) :
    topK ranked k = some (ranked.take (min k ranked.length)) ∧
    (ranked.length ≤ k → topK ranked k = some ranked) := by
  have hb : min k (List.length (List.take k ranked)) = min k ranked.length := by
    simp [List.length_take]
  constructor
  · rw [topK]
    simp only [hb]
    exact mapOpt_range_take ranked _ (Nat.min_le_right _ _)
  · intro hk
    rw [topK]
    simp only [hb, Nat.min_eq_right hk]
    rw [mapOpt_range_take ranked _ le_rfl, List.take_length]

/-- Witness for C3 at a concrete input with `k` larger than the list. -/
theorem C3_topK_first_min_witness :
    topK [((['P'], ['q']), (1 / 2, [1, 2]))] 5 =
      some [((['P'], ['q']), (1 / 2, [1, 2]))] :=
  (C3_topK_first_min [((['P'], ['q']), (1 / 2, [1, 2]))] 5).2 (by decide)

/-- C9: `ks` sorts its second argument in place: the post-call state
`(ks a b).2` is an ascending-sorted permutation of the original contents of
`b` (the first argument is only read, so it is unchanged by construction in
this embedding); consequently the value sequence stored alongside each KS
score by the ranking step is the sorted form of the original extension. -/
theorem C9_ks_sorts_second_argument (a b bag : List ℚ)
    (index : List ((Str × Str) × List ℚ)) :
    List.Sorted (· ≤ ·) (ks a b).2 ∧ (ks a b).2.Perm b ∧
    (rank bag index).map (fun e => e.2.2) = index.map (fun e => sortQ e.2) := by
  refine ⟨List.sorted_insertionSort _ b, List.perm_insertionSort _ b, ?_⟩
  simp [rank, ks]

lemma mergeFuel_swap (n : ℕ) :
    ∀ (l1 l2 : List ℚ) (i1 i2 : ℕ),
      mergeFuel n l2 l1 i2 i1 =
        (mergeFuel n l1 l2 i1 i2).map (fun t => (t.1, t.2.2, t.2.1)) := by
  induction n with
  | zero => intro l1 l2 i1 i2; simp [mergeFuel]
  | succ n ih =>
    intro l1 l2 i1 i2
    match l1, l2 with
    | [], [] => simp [mergeFuel]
    | [], b :: s2 =>
      simp only [mergeFuel]
      rw [ih]
      simp
    | a :: s1, [] =>
      simp only [mergeFuel]
      rw [ih]
      simp
    | a :: s1, b :: s2 =>
      simp only [mergeFuel]
      rw [min_comm b a, ih]
      simp

lemma fabs_eq_abs (q : ℚ) : fabs q = |q| := by
  rcases lt_or_ge q 0 with h | h
  · rw [fabs, if_pos h, abs_of_neg h]
  · rw [fabs, if_neg (not_lt.mpr h), abs_of_nonneg h]

lemma fmax_eq_max (a b : ℚ) : fmax a b = max a b := (max_def a b).symm

lemma ksScore_symm (a b : List ℚ) : ksScore a b = ksScore b a := by
  rw [ksScore, ksScore, mergeKS, mergeKS, Nat.add_comm b.length a.length,
    mergeFuel_swap, List.foldl_map]
  apply List.foldl_ext
  intro acc t ht
  simp only [fabs_eq_abs]
  rw [abs_sub_comm]

/-- C4: `ks` is symmetric — for non-empty sequences `A`, `B`, each pre-sorted
as the implementation requires of its first argument, the KS score of `A`
against `B` equals the KS score of `B` against `A`. -/
theorem C4_ks_symmetric (a b : List ℚ) (ha : a ≠ []) (hb : b ≠ [])
    (hsa : List.Sorted (· ≤ ·) a) (hsb : List.Sorted (· ≤ ·) b) :
    (ks a b).1 = (ks b a).1 := by
  have ea : sortQ a = a := hsa.insertionSort_eq
  have eb : sortQ b = b := hsb.insertionSort_eq
  simp only [ks, sortQ] at *
  rw [ea, eb, ksScore_symm]

/-- Witness for C4 at the concrete sorted bags `[1, 2]` and `[2, 3]`. -/
theorem C4_ks_symmetric_witness :
    (ks [1, 2] [2, 3]).1 = (ks [2, 3] [1, 2]).1 :=
  C4_ks_symmetric [1, 2] [2, 3] (by decide) (by decide)
    (by norm_num [List.sorted_cons]) (by norm_num [List.sorted_cons])

lemma dropWhileLen {α : Type} (p : α → Bool) (l : List α) :
    (l.dropWhile p).length ≤ l.length := by
  induction l with
  | nil => simp
  | cons x xs ih =>
    rw [List.dropWhile_cons]
    split
    · exact le_trans ih (Nat.le_succ _)
    · simp

lemma mergeFuel_index_le (n : ℕ) :
    ∀ (l1 l2 : List ℚ) (i1 i2 : ℕ),
      ∀ t ∈ mergeFuel n l1 l2 i1 i2,
        t.2.1 ≤ i1 + l1.length ∧ t.2.2 ≤ i2 + l2.length := by
  induction n with
  | zero => intro l1 l2 i1 i2 t ht; simp [mergeFuel] at ht
  | succ n ih =>
    intro l1 l2 i1 i2 t ht
    match l1, l2 with
    | [], [] => simp [mergeFuel] at ht
    | [], b :: s2 =>
      simp only [mergeFuel, List.mem_cons] at ht
      rcases ht with rfl | ht
      · exact ⟨Nat.le_add_right _ _, Nat.add_le_add_left (Nat.sub_le _ _) _⟩
      · have h2 := dropWhileLen (fun y => decide (y = b)) (b :: s2)
        have := ih [] _ i1 _ t ht
        refine ⟨by simpa using this.1, le_trans this.2 ?_⟩
        simp only [List.length_nil, Nat.add_zero] at *
        omega
    | a :: s1, [] =>
      simp only [mergeFuel, List.mem_cons] at ht
      rcases ht with rfl | ht
      · exact ⟨Nat.add_le_add_left (Nat.sub_le _ _) _, Nat.le_add_right _ _⟩
      · have h1 := dropWhileLen (fun y => decide (y = a)) (a :: s1)
        have := ih _ [] _ i2 t ht
        refine ⟨le_trans this.1 ?_, by simpa using this.2⟩
        omega
    | a :: s1, b :: s2 =>
      simp only [mergeFuel, List.mem_cons] at ht
      rcases ht with rfl | ht
      · exact ⟨Nat.add_le_add_left (Nat.sub_le _ _) _,
          Nat.add_le_add_left (Nat.sub_le _ _) _⟩
      · have h1 := dropWhileLen (fun y => decide (y = min a b)) (a :: s1)
        have h2 := dropWhileLen (fun y => decide (y = min a b)) (b :: s2)
        have := ih _ _ _ _ t ht
        exact ⟨le_trans this.1 (by omega), le_trans this.2 (by omega)⟩

lemma le_foldl_fmax {α : Type} (g : α → ℚ) :
    ∀ (l : List α) (acc : ℚ), acc ≤ l.foldl (fun a t => fmax a (g t)) acc := by
  intro l
  induction l with
  | nil => intro acc; simp
  | cons x xs ih =>
    intro acc
    refine le_trans ?_ (ih (fmax acc (g x)))
    rw [fmax_eq_max]
    exact le_max_left _ _

lemma foldl_fmax_le {α : Type} (g : α → ℚ) (c : ℚ) :
    ∀ (l : List α) (acc : ℚ), acc ≤ c → (∀ t ∈ l, g t ≤ c) →
      l.foldl (fun a t => fmax a (g t)) acc ≤ c := by
  intro l
  induction l with
  | nil => intro acc hacc _; simpa using hacc
  | cons x xs ih =>
    intro acc hacc h
    refine ih (fmax acc (g x)) ?_ (fun t ht => h t (List.mem_cons_of_mem _ ht))
    rw [fmax_eq_max]
    exact max_le hacc (h x (List.mem_cons_self _ _))

/-- C5: for non-empty sequences the value returned by `ks` lies in `[0, 1]`. -/
theorem C5_ks_in_unit_interval (a b : List ℚ) (ha : a ≠ []) (hb : b ≠ []) :
    0 ≤ (ks a b).1 ∧ (ks a b).1 ≤ 1 := by
  rw [ks, ksScore]
  have hla : 0 < (a.length : ℚ) := by
    have := List.length_pos.mpr ha
    exact_mod_cast this
  have hlb : 0 < ((sortQ b).length : ℚ) := by
    have : 0 < b.length := List.length_pos.mpr hb
    rw [sortQ, List.length_insertionSort]
    exact_mod_cast this
  constructor
  · exact le_foldl_fmax _ _ 0
  · refine foldl_fmax_le _ 1 _ 0 zero_le_one (fun t ht => ?_)
    have hidx := mergeFuel_index_le _ _ _ _ _ t ht
    have h1 : (t.2.1 : ℚ) ≤ (a.length : ℚ) := by
      have := hidx.1
      rw [Nat.zero_add] at this
      exact_mod_cast this
    have h2 : (t.2.2 : ℚ) ≤ ((sortQ b).length : ℚ) := by
      have := hidx.2
      rw [Nat.zero_add] at this
      exact_mod_cast this
    have hx0 : (0 : ℚ) ≤ (t.2.1 : ℚ) * (1 / (a.length : ℚ)) := by positivity
    have hy0 : (0 : ℚ) ≤ (t.2.2 : ℚ) * (1 / ((sortQ b).length : ℚ)) := by positivity
    have hx1 : (t.2.1 : ℚ) * (1 / (a.length : ℚ)) ≤ 1 := by
      rw [mul_one_div, div_le_one hla]
      exact h1
    have hy1 : (t.2.2 : ℚ) * (1 / ((sortQ b).length : ℚ)) ≤ 1 := by
      rw [mul_one_div, div_le_one hlb]
      exact h2
    rw [fabs_eq_abs, abs_le]
    constructor <;> linarith

/-- Witness for C5 at the concrete non-empty bags `[1]` and `[2]`. -/
theorem C5_ks_in_unit_interval_witness :
    0 ≤ (ks [1] [2]).1 ∧ (ks [1] [2]).1 ≤ 1 :=
  C5_ks_in_unit_interval [1] [2] (by decide) (by decide)

lemma startsList_nil (s : Str) : startsList [] s = true := by
  cases s <;> rfl

lemma startsList_one (c : Char) (s : Str) :
    startsList [c] s = match s with
      | [] => false
      | d :: _ => decide (c = d) := by
  cases s with
  | nil => rfl
  | cons d rest =>
    show (decide (c = d) && startsList [] rest) = _
    rw [startsList_nil, Bool.and_true]

lemma hasCh_cons (c x : Char) (xs : Str) :
    hasCh c (x :: xs) = (decide (x = c) || hasCh c xs) := by
  simp [hasCh]

lemma hasCh_ne {c : Char} {s : Str} (h : hasCh c s = false) :
    ∀ x ∈ s, x ≠ c := by
  intro x hx
  simp [hasCh, List.any_eq_true] at h
  exact h x hx

lemma splitChar_no_sep (sep : Char) (s : Str) (h : hasCh sep s = false) :
    splitChar sep s = [s] := by
  induction s with
  | nil => rfl
  | cons c rest ih =>
    rw [hasCh_cons, Bool.or_eq_false_iff] at h
    have hc : ¬ (c = sep) := by simpa using h.1
    rw [splitChar, if_neg hc, ih h.2]

lemma splitChar_append_sep (sep : Char) (t rest : Str) (h : hasCh sep t = false) :
    splitChar sep (t ++ sep :: rest) = t :: splitChar sep rest := by
  induction t with
  | nil => simp [splitChar]
  | cons c t' ih =>
    rw [hasCh_cons, Bool.or_eq_false_iff] at h
    have hc : ¬ (c = sep) := by simpa using h.1
    have hne : splitChar sep (t' ++ sep :: rest) = t' :: splitChar sep rest := ih h.2
    rw [List.cons_append, splitChar, if_neg hc, hne]

/-- C7: the `--compare-with` filter dispatches on the three pattern forms —
`":<property>"` selects exactly the entries with that property (any type),
`"<type>:"` selects exactly the entries with that type (any property), and
`"<type>:<property>"` (with `':'`-free, non-empty components) selects exactly
the entries matching both — while a pattern containing no `':'` yields the
per-pattern error result and leaves the processing of all other patterns of
the same request unchanged. -/
theorem C7_filter_dispatch (ranked : List RankedEntry) :
    (∀ p : Str, filterOne ranked (':' :: p) =
        .matches (ranked.filter (fun e => decide (e.1.2 = p)))) ∧
    (∀ t : Str, t ≠ [] → hasCh ':' t = false →
      filterOne ranked (t ++ [':']) =
        .matches (ranked.filter (fun e => decide (e.1.1 = t)))) ∧
    (∀ t p : Str, t ≠ [] → p ≠ [] → hasCh ':' t = false → hasCh ':' p = false →
      filterOne ranked (t ++ ':' :: p) =
        .matches (ranked.filter (fun e => decide (e.1.1 = t ∧ e.1.2 = p)))) ∧
    (∀ pats1 pats2 : List Str, ∀ bad : Str, hasCh ':' bad = false →
      runCompareWith ranked (pats1 ++ bad :: pats2) =
        runCompareWith ranked pats1 ++ .err bad :: runCompareWith ranked pats2) := by
  have herr : ∀ bad : Str, hasCh ':' bad = false → filterOne ranked bad = .err bad := by
    intro bad hb
    have hs : startsList [':'] bad = false := by
      rw [startsList_one]
      cases bad with
      | nil => rfl
      | cons d rest =>
        have : d ≠ ':' := hasCh_ne hb d (List.mem_cons_self _ _)
        simpa using fun h => this h.symm
    have he : endsList [':'] bad = false := by
      rw [endsList, List.reverse_singleton, startsList_one]
      cases hrev : bad.reverse with
      | nil => rfl
      | cons d rest =>
        have hd : d ∈ bad := by
          rw [← List.mem_reverse, hrev]
          exact List.mem_cons_self _ _
        have : d ≠ ':' := hasCh_ne hb d hd
        simpa using fun h => this h.symm
    rw [filterOne, if_neg (by simp [hs]), if_neg (by simp [he]), if_neg (by simp [hb])]
  refine ⟨?_, ?_, ?_, ?_⟩
  · intro p
    have hs : startsList [':'] (':' :: p) = true := by
      rw [startsList_one]; simp
    rw [filterOne, if_pos (by simp [hs])]
    simp [dropLead, hs]
  · intro t ht hct
    have hs : startsList [':'] (t ++ [':']) = false := by
      rw [startsList_one]
      cases t with
      | nil => exact absurd rfl ht
      | cons d rest =>
        have : d ≠ ':' := hasCh_ne hct d (List.mem_cons_self _ _)
        simpa using fun h => this h.symm
    have he : endsList [':'] (t ++ [':']) = true := by
      rw [endsList, List.reverse_singleton, List.reverse_append]
      rw [List.reverse_singleton, List.singleton_append, startsList_one]
      simp
    have hdt : dropTrail [':'] (t ++ [':']) = t := by
      rw [dropTrail, if_pos he]
      simp
    rw [filterOne, if_neg (by simp [hs]), if_pos (by simp [he]), hdt]
  · intro t p ht hp hct hcp
    have hs : startsList [':'] (t ++ ':' :: p) = false := by
      rw [startsList_one]
      cases t with
      | nil => exact absurd rfl ht
      | cons d rest =>
        have : d ≠ ':' := hasCh_ne hct d (List.mem_cons_self _ _)
        simpa using fun h => this h.symm
    have he : endsList [':'] (t ++ ':' :: p) = false := by
      rw [endsList, List.reverse_singleton, startsList_one]
      have hrevp : p.reverse ≠ [] := by
        simpa using hp
      rcases List.exists_cons_of_ne_nil hrevp with ⟨d, rest, hdr⟩
      have hd : d ∈ p := by
        rw [← List.mem_reverse, hdr]
        exact List.mem_cons_self _ _
      have hdne : d ≠ ':' := hasCh_ne hcp d hd
      rw [List.reverse_append, show List.reverse (':' :: p) = p.reverse ++ [':'] by
        simp, hdr]
      simpa using fun h => hdne h.symm
    have hhc : hasCh ':' (t ++ ':' :: p) = true := by
      simp [hasCh]
    have hsp : splitChar ':' (t ++ ':' :: p) = [t, p] := by
      rw [splitChar_append_sep _ _ _ hct, splitChar_no_sep _ _ hcp]
    rw [filterOne, if_neg (by simp [hs]), if_neg (by simp [he]),
      if_pos (by simp [hhc]), hsp]
    rfl
  · intro pats1 pats2 bad hb
    rw [runCompareWith, List.map_append, List.map_cons, herr bad hb]
    rfl

/-- Witness for C7: the four dispatch forms evaluated on a concrete two-entry
ranked list with patterns `":q"`, `"T:"`, `"T:q"` and the separator-free
pattern `"bad"`. -/
theorem C7_filter_dispatch_witness :
    filterOne [((['T'], ['q']), (0, [1])), ((['U'], ['r']), (1, [2]))]
        (':' :: ['q']) =
      .matches [((['T'], ['q']), (0, [1]))] ∧
    filterOne [((['T'], ['q']), (0, [1])), ((['U'], ['r']), (1, [2]))]
        (['T'] ++ [':']) =
      .matches [((['T'], ['q']), (0, [1]))] ∧
    filterOne [((['T'], ['q']), (0, [1])), ((['U'], ['r']), (1, [2]))]
        (['T'] ++ ':' :: ['q']) =
      .matches [((['T'], ['q']), (0, [1]))] ∧
    runCompareWith [((['T'], ['q']), (0, [1])), ((['U'], ['r']), (1, [2]))]
        ([[':', 'q']] ++ ['b', 'a', 'd'] :: [['T', ':']]) =
      runCompareWith [((['T'], ['q']), (0, [1])), ((['U'], ['r']), (1, [2]))]
          [[':', 'q']] ++
        .err ['b', 'a', 'd'] ::
          runCompareWith [((['T'], ['q']), (0, [1])), ((['U'], ['r']), (1, [2]))]
            [['T', ':']] := by
  refine ⟨?_, ?_, ?_, ?_⟩
  · rw [(C7_filter_dispatch _).1 ['q']]
    decide
  · rw [(C7_filter_dispatch _).2.1 ['T'] (by decide) (by decide)]
    decide
  · rw [(C7_filter_dispatch _).2.2.1 ['T'] ['q'] (by decide) (by decide)
      (by decide) (by decide)]
    decide
  · exact (C7_filter_dispatch _).2.2.2 [[':', 'q']] [['T', ':']] ['b', 'a', 'd']
      (by decide)

lemma find_map_over {K V : Type} [DecidableEq K] (k : K) (v : V) :
    ∀ m : List (K × V), m.any (fun e => decide (e.1 = k)) = true →
      List.find? (fun e => decide (e.1 = k))
        (m.map (fun e => if e.1 = k then (k, v) else e)) = some (k, v) := by
  intro m
  induction m with
  | nil => intro h; simp at h
  | cons e m' ih =>
    intro h
    rw [List.map_cons]
    by_cases he : e.1 = k
    · rw [if_pos he]
      exact List.find?_cons_of_pos _ (by simp)
    · rw [if_neg he, List.find?_cons_of_neg _ (by simpa using he)]
      refine ih ?_
      simp only [List.any_cons] at h
      rcases Bool.or_eq_true_iff.mp h with h1 | h1
      · exact absurd (of_decide_eq_true h1) he
      · exact h1

lemma find_append_last {K V : Type} [DecidableEq K] (k : K) (v : V) :
    ∀ m : List (K × V), (∀ e ∈ m, ¬ (e.1 = k)) →
      List.find? (fun e => decide (e.1 = k)) (m ++ [(k, v)]) = some (k, v) := by
  intro m
  induction m with
  | nil => exact fun _ => List.find?_cons_of_pos _ (by simp)
  | cons e m' ih =>
    intro h
    rw [List.cons_append, List.find?_cons_of_neg _
      (by simpa using h e (List.mem_cons_self _ _))]
    exact ih (fun e' he' => h e' (List.mem_cons_of_mem _ he'))

lemma find_map_other {K V : Type} [DecidableEq K] (k k' : K) (v : V)
    (hkk : k' ≠ k) :
    ∀ m : List (K × V),
      List.find? (fun e => decide (e.1 = k'))
        (m.map (fun e => if e.1 = k then (k, v) else e)) =
      List.find? (fun e => decide (e.1 = k')) m := by
  intro m
  induction m with
  | nil => rfl
  | cons e m' ih =>
    rw [List.map_cons]
    by_cases he : e.1 = k
    · rw [if_pos he]
      rw [List.find?_cons_of_neg _ (by simpa using fun hk => hkk hk.symm),
        List.find?_cons_of_neg _ (by
          rw [he]
          simpa using fun hk => hkk hk.symm)]
      exact ih
    · rw [if_neg he]
      by_cases he' : e.1 = k'
      · rw [List.find?_cons_of_pos _ (by simpa using he'),
          List.find?_cons_of_pos _ (by simpa using he')]
      · rw [List.find?_cons_of_neg _ (by simpa using he'),
          List.find?_cons_of_neg _ (by simpa using he')]
        exact ih

lemma find_append_other {K V : Type} [DecidableEq K] (k k' : K) (v : V)
    (hkk : k' ≠ k) :
    ∀ m : List (K × V),
      List.find? (fun e => decide (e.1 = k')) (m ++ [(k, v)]) =
      List.find? (fun e => decide (e.1 = k')) m := by
  intro m
  induction m with
  | nil =>
    rw [List.nil_append]
    rw [List.find?_cons_of_neg _ (by simpa using fun hk => hkk hk.symm)]
  | cons e m' ih =>
    rw [List.cons_append]
    by_cases he' : e.1 = k'
    · rw [List.find?_cons_of_pos _ (by simpa using he'),
        List.find?_cons_of_pos _ (by simpa using he')]
    · rw [List.find?_cons_of_neg _ (by simpa using he'),
        List.find?_cons_of_neg _ (by simpa using he')]
      exact ih

lemma lookupA_insertA_same {K V : Type} [DecidableEq K] (m : List (K × V))
    (k : K) (v : V) : lookupA (insertA m k v) k = some v := by
  rw [insertA, lookupA]
  split
  · next hany => rw [find_map_over k v m hany]; rfl
  · next hany =>
    have hall : ∀ e ∈ m, ¬ (e.1 = k) := by
      intro e he hek
      exact hany (List.any_eq_true.mpr ⟨e, he, by simpa using hek⟩)
    rw [find_append_last k v m hall]
    rfl

lemma lookupA_insertA_other {K V : Type} [DecidableEq K] (m : List (K × V))
    (k k' : K) (v : V) (h : k' ≠ k) :
    lookupA (insertA m k v) k' = lookupA m k' := by
  rw [insertA, lookupA, lookupA]
  split
  · rw [find_map_other k k' v h m]
  · rw [find_append_other k k' v h m]

lemma keys_foldl_typeStep_nodup :
    ∀ (ts : List Triple) (m : List (Str × Str)),
      (m.map (fun e => e.1)).Nodup →
        ((ts.foldl typeStep m).map (fun e => e.1)).Nodup := by
  intro ts
  induction ts with
  | nil => intro m hm; simpa using hm
  | cons f ts' ih =>
    intro m hm
    rw [List.foldl_cons]
    refine ih _ ?_
    rcases hf : extractType f with _ | ⟨r, ty⟩
    · simp only [typeStep, hf]
      exact hm
    · simp only [typeStep, hf]
      rw [insertA]
      split
      · next hany =>
        have heq : ((List.map (fun e => if e.1 = r then (r, ty) else e) m).map
            (fun e => e.1)) = m.map (fun e => e.1) := by
          rw [List.map_map]
          refine List.map_congr_left (fun e _ => ?_)
          by_cases he : e.1 = r
          · simp [he]
          · simp [he]
        rw [heq]
        exact hm
      · next hany =>
        have hr : r ∉ m.map (fun e => e.1) := by
          intro hmem
          rcases List.mem_map.mp hmem with ⟨e, he, hek⟩
          exact hany (List.any_eq_true.mpr ⟨e, he, by simpa using hek⟩)
        rw [List.map_append]
        simp only [List.map_cons, List.map_nil]
        rw [List.nodup_append]
        refine ⟨hm, List.nodup_singleton _, ?_⟩
        intro x hx hy
        simp only [List.mem_singleton] at hy
        subst hy
        exact hr hx

lemma lookupA_foldl_typeStep_untouched :
    ∀ (ys : List Triple) (m : List (Str × Str)) (R : Str),
      (∀ f ∈ ys, ∀ v, extractType f ≠ some (R, v)) →
      lookupA (ys.foldl typeStep m) R = lookupA m R := by
  intro ys
  induction ys with
  | nil => intro m R _; rfl
  | cons f ys' ih =>
    intro m R h
    rw [List.foldl_cons]
    rw [ih _ R (fun f' hf' => h f' (List.mem_cons_of_mem _ hf'))]
    rcases hf : extractType f with _ | ⟨r, ty⟩
    · simp only [typeStep, hf]
    · simp only [typeStep, hf]
      have hr : R ≠ r := by
        intro hR
        exact h f (List.mem_cons_self _ _) ty (by rw [hf, hR])
      exact lookupA_insertA_other m r R ty hr

/-- C8: in the type-extraction pass each resource maps to at most one type
(the key list of the built map has no duplicates), and the last type fact
processed for a resource wins: if some fact in the stream maps resource `R`
to `T2` and no later fact maps `R` to anything, the final map sends `R` to
`T2` — regardless of any earlier facts (such as one mapping `R` to `T1`). -/
theorem C8_last_type_fact_wins :
    (∀ triples : List Triple,
      ((buildTypes triples).map (fun e => e.1)).Nodup) ∧
    (∀ (xs ys : List Triple) (f2 : Triple) (R T2 : Str),
      extractType f2 = some (R, T2) →
      (∀ f ∈ ys, ∀ v, extractType f ≠ some (R, v)) →
      lookupA (buildTypes (xs ++ f2 :: ys)) R = some T2) := by
  constructor
  · intro triples
    exact keys_foldl_typeStep_nodup triples [] (by simp)
  · intro xs ys f2 R T2 hf2 hys
    rw [buildTypes, List.foldl_append, List.foldl_cons]
    rw [lookupA_foldl_typeStep_untouched ys _ R hys]
    rw [typeStep, hf2]
    exact lookupA_insertA_same _ R T2

/-- Witness for C8: two type facts for resource `R1`, first to `T1`, then to
`T2`; the built map sends `R1` to `T2`. -/
theorem C8_last_type_fact_wins_witness :
    lookupA (buildTypes
      [⟨['R', '1'], typeMarker, ['T', '1']⟩,
       ⟨['R', '1'], typeMarker, ['T', '2']⟩]) ['R', '1'] = some ['T', '2'] :=
  C8_last_type_fact_wins.2 [⟨['R', '1'], typeMarker, ['T', '1']⟩]
    [] ⟨['R', '1'], typeMarker, ['T', '2']⟩ ['R', '1'] ['T', '2']
    (by decide) (by simp)

lemma insertByM_isSome {α : Type} (cmp : α → α → Option Ordering) (P : α → Prop)
    (hP : ∀ x y, P x → P y → (cmp x y).isSome = true) :
    ∀ (s : List α) (x : α), P x → (∀ y ∈ s, P y) →
      ∃ r, insertByM cmp x s = some r ∧ ∀ z ∈ r, P z := by
  intro s
  induction s with
  | nil =>
    intro x hx _
    refine ⟨[x], rfl, ?_⟩
    intro z hz
    simp only [List.mem_singleton] at hz
    subst hz
    exact hx
  | cons y ys ih =>
    intro x hx hall
    have hy : P y := hall y (List.mem_cons_self _ _)
    have hcmp := hP x y hx hy
    rcases Option.isSome_iff_exists.mp hcmp with ⟨o, ho⟩
    match o with
    | .lt =>
      refine ⟨x :: y :: ys, ?_, ?_⟩
      · simp [insertByM, ho]
      · intro z hz
        rcases List.mem_cons.mp hz with rfl | hz
        · exact hx
        · exact hall z hz
    | .eq =>
      rcases ih x hx (fun y' hy' => hall y' (List.mem_cons_of_mem _ hy')) with
        ⟨r, hr, hrP⟩
      refine ⟨y :: r, ?_, ?_⟩
      · simp [insertByM, ho, hr]
      · intro z hz
        rcases List.mem_cons.mp hz with rfl | hz
        · exact hy
        · exact hrP z hz
    | .gt =>
      rcases ih x hx (fun y' hy' => hall y' (List.mem_cons_of_mem _ hy')) with
        ⟨r, hr, hrP⟩
      refine ⟨y :: r, ?_, ?_⟩
      · simp [insertByM, ho, hr]
      · intro z hz
        rcases List.mem_cons.mp hz with rfl | hz
        · exact hy
        · exact hrP z hz

lemma sortByM_isSome {α : Type} (cmp : α → α → Option Ordering) (P : α → Prop)
    (hP : ∀ x y, P x → P y → (cmp x y).isSome = true) :
    ∀ l : List α, (∀ x ∈ l, P x) →
      ∃ r, sortByM cmp l = some r ∧ ∀ z ∈ r, P z := by
  intro l
  induction l with
  | nil => exact fun _ => ⟨[], rfl, by simp⟩
  | cons x xs ih =>
    intro hall
    rcases ih (fun y hy => hall y (List.mem_cons_of_mem _ hy)) with ⟨s, hs, hsP⟩
    rcases insertByM_isSome cmp P hP s x (hall x (List.mem_cons_self _ _)) hsP with
      ⟨r, hr, hrP⟩
    exact ⟨r, by simp [sortByM, hs, hr], hrP⟩

/-- C10: under the precondition that no value is `NaN`, every
`partial_cmp(..).unwrap()` comparison sort in the program is safe — sorting a
bag of non-`NaN` values (the query-bag sort at main.rs:340 and the in-`ks`
sort at main.rs:70), and sorting ranked entries by a non-`NaN` score
(main.rs:359-364), never hit the `unwrap`-of-`None` panic; and the
precondition is needed: with a `NaN` present the comparator returns `None`
and the sort fails. -/
theorem C10_partial_cmp_unwrap_safe :
    (∀ l : List FVal, (∀ x ∈ l, x ≠ none) → (sortByM pcmpQ l).isSome = true) ∧
    (∀ l : List ((Str × Str) × (FVal × List FVal)),
      (∀ e ∈ l, e.2.1 ≠ none) → (sortByM scoreCmpQ l).isSome = true) ∧
    sortByM pcmpQ [none, some 1] = none := by
  refine ⟨?_, ?_, ?_⟩
  · intro l hl
    have hP : ∀ x y : FVal, x ≠ none → y ≠ none → (pcmpQ x y).isSome = true := by
      intro x y hx hy
      rcases Option.ne_none_iff_exists.mp hx with ⟨a, ha⟩
      rcases Option.ne_none_iff_exists.mp hy with ⟨b, hb⟩
      rw [← ha, ← hb]
      rfl
    rcases sortByM_isSome pcmpQ (fun x => x ≠ none) hP l hl with ⟨r, hr, _⟩
    rw [hr]
    rfl
  · intro l hl
    have hP : ∀ x y : (Str × Str) × (FVal × List FVal),
        x.2.1 ≠ none → y.2.1 ≠ none → (scoreCmpQ x y).isSome = true := by
      intro x y hx hy
      rcases Option.ne_none_iff_exists.mp hx with ⟨a, ha⟩
      rcases Option.ne_none_iff_exists.mp hy with ⟨b, hb⟩
      rw [scoreCmpQ, ← ha, ← hb]
      rfl
    rcases sortByM_isSome scoreCmpQ (fun e => e.2.1 ≠ none) hP l hl with ⟨r, hr, _⟩
    rw [hr]
    rfl
  · rfl

/-- Witness for C10 on concrete `NaN`-free inputs. -/
theorem C10_partial_cmp_unwrap_safe_witness :
    (sortByM pcmpQ [some 1, some 0]).isSome = true ∧
    (sortByM scoreCmpQ [((['T'], ['q']), (some 1, [some 2]))]).isSome = true :=
  ⟨C10_partial_cmp_unwrap_safe.1 [some 1, some 0] (by simp),
   C10_partial_cmp_unwrap_safe.2.1 [((['T'], ['q']), (some 1, [some 2]))]
     (by simp)⟩

lemma digCh_isDigit {d : ℕ} (hd : d < 10) : (digCh d).isDigit = true := by
  interval_cases d <;> decide

lemma digCh_toNat {d : ℕ} (hd : d < 10) : (digCh d).toNat - 48 = d := by
  interval_cases d <;> decide

lemma isDigit_ne {c x : Char} (h : c.isDigit = true) (hx : x.isDigit = false) :
    c ≠ x := by
  intro rfl_eq
  rw [rfl_eq] at h
  rw [h] at hx
  exact Bool.noConfusion hx

lemma natStr_ne_nil (n : ℕ) : natStr n ≠ [] := by
  rw [natStr]
  split
  · simp
  · next hn =>
    have : Nat.digits 10 n ≠ [] := Nat.digits_ne_nil_iff_ne_zero.mpr hn
    simpa using this

lemma natStr_all_digit (n : ℕ) : ∀ c ∈ natStr n, c.isDigit = true := by
  rw [natStr]
  split
  · intro c hc
    simp only [List.mem_singleton] at hc
    subst hc
    decide
  · intro c hc
    rw [List.mem_reverse] at hc
    rcases List.mem_map.mp hc with ⟨d, hd, rfl⟩
    exact digCh_isDigit (Nat.digits_lt_base (by norm_num) hd)

lemma foldr_digits_ofDigits (L : List ℕ) :
    L.foldr (fun c acc => 10 * acc + c) 0 = Nat.ofDigits 10 L := by
  induction L with
  | nil => simp [Nat.ofDigits]
  | cons d L ih =>
    rw [List.foldr_cons, ih, Nat.ofDigits_cons]
    ring

lemma natStr_foldl (n : ℕ) :
    (natStr n).foldl (fun acc c => 10 * acc + (c.toNat - 48)) 0 = n := by
  rw [natStr]
  split
  · next hn => subst hn; decide
  · next hn =>
    rw [List.foldl_reverse]
    have h1 : ((Nat.digits 10 n).map digCh).foldr
        (fun c acc => 10 * acc + (c.toNat - 48)) 0 =
        (Nat.digits 10 n).foldr (fun d acc => 10 * acc + d) 0 := by
      have : ∀ L : List ℕ, (∀ d ∈ L, d < 10) →
          (L.map digCh).foldr (fun c acc => 10 * acc + (c.toNat - 48)) 0 =
          L.foldr (fun d acc => 10 * acc + d) 0 := by
        intro L
        induction L with
        | nil => intro _; rfl
        | cons d L ih =>
          intro hall
          rw [List.map_cons, List.foldr_cons, List.foldr_cons,
            ih (fun d' hd' => hall d' (List.mem_cons_of_mem _ hd')),
            digCh_toNat (hall d (List.mem_cons_self _ _))]
      exact this _ (fun d hd => Nat.digits_lt_base (by norm_num) hd)
    rw [h1, foldr_digits_ofDigits, Nat.ofDigits_digits]

lemma parseDigits_natStr (n : ℕ) : parseDigits (natStr n) = some n := by
  rw [parseDigits, if_neg, natStr_foldl]
  push_neg
  refine ⟨natStr_ne_nil n, ?_⟩
  rw [List.all_eq_true]
  exact natStr_all_digit n

lemma foldl_zeros (z : ℕ) :
    (List.replicate z '0').foldl (fun acc c => 10 * acc + (c.toNat - 48)) 0 = 0 := by
  induction z with
  | zero => rfl
  | succ z ih => rw [List.replicate_succ, List.foldl_cons]; simpa using ih

lemma parseDigits_pad (z n : ℕ) :
    parseDigits (List.replicate z '0' ++ natStr n) = some n := by
  rw [parseDigits, if_neg, List.foldl_append, foldl_zeros, natStr_foldl]
  push_neg
  constructor
  · simp [natStr_ne_nil n]
  · rw [List.all_eq_true]
    intro c hc
    rcases List.mem_append.mp hc with hc | hc
    · rw [List.eq_of_mem_replicate hc]; decide
    · exact natStr_all_digit n c hc

lemma natStr_len_le {n k : ℕ} (hk : 1 ≤ k) (hn : n < 10 ^ k) :
    (natStr n).length ≤ k := by
  rw [natStr]
  split
  · simpa using hk
  · next hne =>
    rw [List.length_reverse, List.length_map,
      Nat.digits_len 10 n (by norm_num) hne]
    have := (Nat.lt_pow_iff_log_lt (by norm_num) hne).mp hn
    omega

lemma fracStr_all_digit (k fp : ℕ) : ∀ c ∈ fracStr k fp, c.isDigit = true := by
  rw [fracStr]
  split
  · intro c hc
    simp only [List.mem_singleton] at hc
    subst hc
    decide
  · intro c hc
    rcases List.mem_append.mp hc with hc | hc
    · rw [List.eq_of_mem_replicate hc]; decide
    · exact natStr_all_digit fp c hc

lemma hasCh_false_iff (x : Char) (s : Str) :
    hasCh x s = false ↔ ∀ c ∈ s, c ≠ x := by
  rw [hasCh, List.any_eq_false]
  constructor
  · intro h c hc
    have := h c hc
    simpa using this
  · intro h c hc
    simpa using h c hc

lemma all_digit_no_ch {s : Str} {x : Char} (hx : x.isDigit = false)
    (h : ∀ c ∈ s, c.isDigit = true) : hasCh x s = false :=
  (hasCh_false_iff x s).mpr (fun c hc => isDigit_ne (h c hc) hx)

lemma parseUnsigned_pair (ip fp : Str) (hip : hasCh '.' ip = false)
    (hfp : hasCh '.' fp = false) :
    parseUnsigned (ip ++ '.' :: fp) =
      (do
        let i ← parseDigits ip
        let f ← parseDigits fp
        pure ((i : ℚ) + (f : ℚ) / 10 ^ fp.length)) := by
  rw [parseUnsigned, splitChar_append_sep _ _ _ hip, splitChar_no_sep _ _ hfp]

lemma parseUnsigned_body (k m : ℕ) :
    parseUnsigned (natStr (m / 10 ^ k) ++ '.' :: fracStr k (m % 10 ^ k)) =
      some ((m : ℚ) / 10 ^ k) := by
  rw [parseUnsigned_pair _ _ (all_digit_no_ch (by decide) (natStr_all_digit _))
    (all_digit_no_ch (by decide) (fracStr_all_digit _ _))]
  rcases Nat.eq_zero_or_pos k with hk | hk
  · subst hk
    have hfp : m % 10 ^ 0 = 0 := by rw [pow_zero, Nat.mod_one]
    rw [hfp]
    have h0 : fracStr 0 0 = ['0'] := rfl
    rw [h0, parseDigits_natStr]
    have hp0 : parseDigits ['0'] = some 0 := by decide
    rw [hp0]
    simp [pow_zero, Nat.div_one]
  · have hfp_lt : m % 10 ^ k < 10 ^ k := Nat.mod_lt _ (by positivity)
    have hlen : (natStr (m % 10 ^ k)).length ≤ k := natStr_len_le hk hfp_lt
    have hfr : fracStr k (m % 10 ^ k) =
        List.replicate (k - (natStr (m % 10 ^ k)).length) '0' ++ natStr (m % 10 ^ k) := by
      rw [fracStr, if_neg (by omega)]
    rw [hfr, parseDigits_natStr, parseDigits_pad]
    have hlen2 : (List.replicate (k - (natStr (m % 10 ^ k)).length) '0' ++
        natStr (m % 10 ^ k)).length = k := by
      rw [List.length_append, List.length_replicate]
      omega
    rw [hlen2]
    have hm : (m : ℚ) = ((m / 10 ^ k : ℕ) : ℚ) * 10 ^ k + ((m % 10 ^ k : ℕ) : ℚ) := by
      conv_lhs => rw [← Nat.div_add_mod m (10 ^ k)]
      push_cast
      ring
    show some _ = some _
    congr 1
    rw [hm]
    have h10 : ((10 : ℚ) ^ k) ≠ 0 := by positivity
    field_simp

lemma abs_rat_natAbs (q : ℚ) : |q| = (q.num.natAbs : ℚ) / (q.den : ℚ) := by
  conv_lhs => rw [← Rat.num_div_den q]
  rw [abs_div, abs_of_nonneg (by positivity : (0 : ℚ) ≤ (q.den : ℚ))]
  congr 1
  rw [Int.cast_natAbs, Int.cast_abs]

lemma parseNum_fmtNum {q : ℚ} (hq : decOK q) : parseNum (fmtNum q) = some q := by
  have hden0 : (q.den : ℚ) ≠ 0 := by
    have := q.den_pos
    positivity
  have hdvd : (q.den : ℕ) ∣ q.num.natAbs * 10 ^ decExp q.den :=
    Dvd.dvd.mul_left hq _
  have hmQ : ((q.num.natAbs * 10 ^ decExp q.den / q.den : ℕ) : ℚ) =
      (q.num.natAbs : ℚ) * 10 ^ decExp q.den / (q.den : ℚ) := by
    rw [Nat.cast_div hdvd hden0]
    push_cast
    ring_nf
  have h10 : ((10 : ℚ) ^ decExp q.den) ≠ 0 := by positivity
  have habs : ((q.num.natAbs * 10 ^ decExp q.den / q.den : ℕ) : ℚ) /
      10 ^ decExp q.den = |q| := by
    rw [hmQ, abs_rat_natAbs]
    field_simp
    ring
  simp only [fmtNum]
  rcases lt_or_ge q 0 with hneg | hpos
  · rw [if_pos hneg, parseNum]
    rw [if_pos (by simp)]
    simp only [List.tail_cons]
    rw [parseUnsigned_body, habs, abs_of_neg hneg]
    simp
  · rw [if_neg (not_lt.mpr hpos), parseNum]
    have hh : ∀ (x : ℕ) (restL : Str),
        ¬ ((natStr x ++ restL).head? = some '-') := by
      intro x restL hcontra
      rcases List.exists_cons_of_ne_nil (natStr_ne_nil x) with ⟨c, cs, hcs⟩
      have hcd : c.isDigit = true := by
        refine natStr_all_digit x c ?_
        rw [hcs]
        exact List.mem_cons_self _ _
      rw [hcs, List.cons_append] at hcontra
      simp only [List.head?_cons, Option.some.injEq] at hcontra
      exact isDigit_ne hcd (by decide) hcontra
    rw [if_neg (hh _ _)]
    rw [parseUnsigned_body, habs, abs_of_nonneg hpos]

lemma fmtNum_chars (q : ℚ) :
    ∀ c ∈ fmtNum q, c.isDigit = true ∨ c = '.' ∨ c = '-' := by
  have hbody : ∀ c ∈ (natStr (q.num.natAbs * 10 ^ decExp q.den / q.den / 10 ^ decExp q.den)
      ++ '.' :: fracStr (decExp q.den)
        (q.num.natAbs * 10 ^ decExp q.den / q.den % 10 ^ decExp q.den)),
      c.isDigit = true ∨ c = '.' ∨ c = '-' := by
    intro c hc
    rcases List.mem_append.mp hc with hc | hc
    · exact Or.inl (natStr_all_digit _ c hc)
    · rcases List.mem_cons.mp hc with rfl | hc
      · exact Or.inr (Or.inl rfl)
      · exact Or.inl (fracStr_all_digit _ _ c hc)
  simp only [fmtNum]
  split
  · intro c hc
    rcases List.mem_cons.mp hc with rfl | hc
    · exact Or.inr (Or.inr rfl)
    · exact hbody c hc
  · exact hbody

lemma fmtNum_no_ch (q : ℚ) (x : Char) (hx1 : x.isDigit = false) (hx2 : x ≠ '.')
    (hx3 : x ≠ '-') : hasCh x (fmtNum q) = false := by
  refine (hasCh_false_iff x _).mpr (fun c hc => ?_)
  rcases fmtNum_chars q c hc with h | h | h
  · exact isDigit_ne h hx1
  · exact fun hcx => hx2 (hcx ▸ h)
  · exact fun hcx => hx3 (hcx ▸ h)

lemma splitCS_cons_ne (c : Char) (t : Str) (hc : ¬ (c = ',')) (ht : t ≠ []) :
    splitCS (c :: t) =
      match splitCS t with
      | [] => [[c]]
      | h :: tl => (c :: h) :: tl := by
  rcases List.exists_cons_of_ne_nil ht with ⟨t1, t2, rfl⟩
  rw [splitCS, if_neg (fun hand => hc hand.1)]

lemma splitCS_no_comma (s : Str) (h : hasCh ',' s = false) : splitCS s = [s] := by
  induction s with
  | nil => rfl
  | cons c rest ih =>
    have hc : ¬ (c = ',') := by
      intro hcc
      exact ((hasCh_false_iff ',' _).mp h c (List.mem_cons_self _ _)) hcc
    cases hrest : rest with
    | nil => rfl
    | cons r1 r2 =>
      rw [← hrest, splitCS_cons_ne c rest hc (by rw [hrest]; simp),
        ih ((hasCh_false_iff ',' _).mpr
          (fun d hd => (hasCh_false_iff ',' _).mp h d (List.mem_cons_of_mem _ hd)))]

lemma splitCS_append (piece l : Str) (h : hasCh ',' piece = false) :
    splitCS (piece ++ ',' :: ' ' :: l) = piece :: splitCS l := by
  induction piece with
  | nil =>
    show splitCS (',' :: ' ' :: l) = [] :: splitCS l
    rw [splitCS, if_pos ⟨rfl, rfl⟩]
  | cons c piece' ih =>
    have hc : ¬ (c = ',') := by
      intro hcc
      exact ((hasCh_false_iff ',' _).mp h c (List.mem_cons_self _ _)) hcc
    have hne : piece' ++ ',' :: ' ' :: l ≠ [] := by simp
    rw [List.cons_append, splitCS_cons_ne c _ hc hne,
      ih ((hasCh_false_iff ',' _).mpr
        (fun d hd => (hasCh_false_iff ',' _).mp h d (List.mem_cons_of_mem _ hd)))]

lemma joinCS_cons2 (t r1 : Str) (r2 : List Str) :
    joinCS (t :: r1 :: r2) = t ++ ',' :: ' ' :: joinCS (r1 :: r2) := by
  rw [joinCS]
  exact fun h => List.noConfusion h

lemma splitCS_joinCS (tokens : List Str) (hne : tokens ≠ [])
    (hall : ∀ t ∈ tokens, hasCh ',' t = false) :
    splitCS (joinCS tokens) = tokens := by
  induction tokens with
  | nil => exact absurd rfl hne
  | cons t rest ih =>
    cases hrest : rest with
    | nil =>
      subst hrest
      show splitCS (joinCS [t]) = [t]
      rw [joinCS]
      exact splitCS_no_comma t (hall t (List.mem_cons_self _ _))
    | cons r1 r2 =>
      subst hrest
      rw [joinCS_cons2, splitCS_append t _ (hall t (List.mem_cons_self _ _))]
      rw [ih (by simp) (fun t' ht' => hall t' (List.mem_cons_of_mem _ ht'))]

lemma mapOpt_parseNum_fmt (l : List ℚ) (h : ∀ q ∈ l, decOK q) :
    mapOpt parseNum (l.map fmtNum) = some l := by
  induction l with
  | nil => rfl
  | cons q l ih =>
    rw [List.map_cons, mapOpt, parseNum_fmtNum (h q (List.mem_cons_self _ _)),
      ih (fun q' hq' => h q' (List.mem_cons_of_mem _ hq'))]
    rfl

lemma parseStringToVector_renderVec (l : List ℚ) (hne : l ≠ [])
    (h : ∀ q ∈ l, decOK q) : parseStringToVector (renderVec l) = some l := by
  have hlen : ¬ ((renderVec l).length < 2) := by
    rw [renderVec]
    simp
  rw [parseStringToVector, if_neg hlen, renderVec]
  have hdrop : (('[' :: (joinCS (l.map fmtNum) ++ [']'])).dropLast).drop 1 =
      joinCS (l.map fmtNum) := by
    have h1 : ('[' :: (joinCS (l.map fmtNum) ++ [']'])).dropLast =
        '[' :: joinCS (l.map fmtNum) := by
      rw [show ('[' :: (joinCS (l.map fmtNum) ++ [']'])) =
        ('[' :: joinCS (l.map fmtNum)) ++ [']'] by simp, List.dropLast_concat]
    rw [h1, List.drop_one, List.tail_cons]
  rw [hdrop, splitCS_joinCS _ (by simpa using hne)
    (fun t ht => by
      rcases List.mem_map.mp ht with ⟨q, hq, rfl⟩
      exact fmtNum_no_ch q ',' (by decide) (by decide) (by decide)),
    mapOpt_parseNum_fmt l h]

lemma joinCS_mem {c : Char} {tokens : List Str} (hc : c ∈ joinCS tokens) :
    c = ',' ∨ c = ' ' ∨ ∃ t ∈ tokens, c ∈ t := by
  induction tokens with
  | nil => simp [joinCS] at hc
  | cons t rest ih =>
    cases hrest : rest with
    | nil =>
      subst hrest
      rw [joinCS] at hc
      exact Or.inr (Or.inr ⟨t, List.mem_cons_self _ _, hc⟩)
    | cons r1 r2 =>
      subst hrest
      rw [joinCS_cons2] at hc
      rcases List.mem_append.mp hc with hc | hc
      · exact Or.inr (Or.inr ⟨t, List.mem_cons_self _ _, hc⟩)
      · rcases List.mem_cons.mp hc with rfl | hc
        · exact Or.inl rfl
        · rcases List.mem_cons.mp hc with rfl | hc
          · exact Or.inr (Or.inl rfl)
          · rcases ih hc with h | h | ⟨t', ht', hct⟩
            · exact Or.inl h
            · exact Or.inr (Or.inl h)
            · exact Or.inr (Or.inr ⟨t', List.mem_cons_of_mem _ ht', hct⟩)

lemma renderVec_no_ch (l : List ℚ) (x : Char) (hx1 : x.isDigit = false)
    (hxs : x ≠ '.' ∧ x ≠ '-' ∧ x ≠ '[' ∧ x ≠ ']' ∧ x ≠ ',' ∧ x ≠ ' ') :
    hasCh x (renderVec l) = false := by
  refine (hasCh_false_iff x _).mpr (fun c hc => ?_)
  rw [renderVec] at hc
  rcases List.mem_cons.mp hc with rfl | hc
  · exact fun h => hxs.2.2.1 h.symm
  · rcases List.mem_append.mp hc with hc | hc
    · rcases joinCS_mem hc with rfl | rfl | ⟨t, ht, hct⟩
      · exact fun h => hxs.2.2.2.2.1 h.symm
      · exact fun h => hxs.2.2.2.2.2 h.symm
      · rcases List.mem_map.mp ht with ⟨q, _, rfl⟩
        rcases fmtNum_chars q c hct with h | h | h
        · exact isDigit_ne h hx1
        · exact fun hcx => hxs.1 (hcx ▸ h)
        · exact fun hcx => hxs.2.1 (hcx ▸ h)
    · rcases List.mem_singleton.mp hc with rfl
      exact fun h => hxs.2.2.2.1 h.symm

lemma insertA_not_mem {K V : Type} [DecidableEq K] (m : List (K × V)) (k : K)
    (v : V) (h : k ∉ m.map (fun e => e.1)) : insertA m k v = m ++ [(k, v)] := by
  rw [insertA, if_neg]
  intro hany
  rcases List.any_eq_true.mp hany with ⟨e, he, hek⟩
  exact h (List.mem_map.mpr ⟨e, he, of_decide_eq_true hek⟩)

lemma splitChar_tab_line (t p v : Str) (ht : hasCh '\t' t = false)
    (hp : hasCh '\t' p = false) (hv : hasCh '\t' v = false) :
    splitChar '\t' (t ++ '\t' :: (p ++ '\t' :: v)) = [t, p, v] := by
  rw [splitChar_append_sep _ _ _ ht, splitChar_append_sep _ _ _ hp,
    splitChar_no_sep _ _ hv]

lemma loadLine_save (m : List ((Str × Str) × List ℚ)) (ty pr : Str) (vs : List ℚ)
    (hty : hasCh '\t' ty = false) (hpr : hasCh '\t' pr = false)
    (hvs : vs ≠ []) (hok : ∀ q ∈ vs, decOK q) :
    loadLine m (ty ++ '\t' :: (pr ++ '\t' :: renderVec vs)) =
      some (insertA m (ty, pr) vs) := by
  have hvtab : hasCh '\t' (renderVec vs) = false :=
    renderVec_no_ch vs '\t' (by decide) (by decide)
  rw [loadLine, splitChar_tab_line ty pr (renderVec vs) hty hpr hvtab]
  show (parseStringToVector (renderVec vs)).map _ = _
  rw [parseStringToVector_renderVec vs hvs hok]
  rfl

/-- Goodness of one index entry for the round trip: tab- and newline-free
type and property names, a non-empty value list, and every value with a
terminating decimal expansion (every `f64` value has one). -/
def entryOK (e : (Str × Str) × List ℚ) : Prop :=
  hasCh '\t' e.1.1 = false ∧ hasCh '\n' e.1.1 = false ∧
  hasCh '\t' e.1.2 = false ∧ hasCh '\n' e.1.2 = false ∧
  e.2 ≠ [] ∧ ∀ q ∈ e.2, decOK q

instance (e : (Str × Str) × List ℚ) : Decidable (entryOK e) := by
  unfold entryOK; infer_instance

lemma loadLinesAux_saveLines (index : List ((Str × Str) × List ℚ)) :
    ∀ m : List ((Str × Str) × List ℚ),
      (index.map (fun e => e.1)).Nodup →
      (∀ e ∈ index, entryOK e) →
      (∀ e ∈ index, e.1 ∉ m.map (fun e' => e'.1)) →
      loadLinesAux m (saveLines index) = some (m ++ index) := by
  induction index with
  | nil => intro m _ _ _; simp [saveLines, loadLinesAux]
  | cons e index' ih =>
    intro m hnd hgood hdisj
    rcases hgood e (List.mem_cons_self _ _) with ⟨h1, _, h3, _, h5, h6⟩
    have hline : loadLine m (e.1.1 ++ '\t' :: (e.1.2 ++ '\t' :: renderVec e.2)) =
        some (insertA m e.1 e.2) := by
      rw [loadLine_save m e.1.1 e.1.2 e.2 h1 h3 h5 h6]
    rw [saveLines, List.map_cons]
    show loadLinesAux m (_ :: _) = _
    rw [loadLinesAux, hline]
    show loadLinesAux (insertA m e.1 e.2) (saveLines index') = _
    rw [insertA_not_mem m e.1 e.2 (hdisj e (List.mem_cons_self _ _))]
    have hnd' : (index'.map (fun e => e.1)).Nodup := (List.nodup_cons.mp hnd).2
    have hkey : e.1 ∉ index'.map (fun e => e.1) := (List.nodup_cons.mp hnd).1
    rw [ih (m ++ [(e.1, e.2)]) hnd'
      (fun e' he' => hgood e' (List.mem_cons_of_mem _ he'))
      (fun e' he' => by
        rw [List.map_append]
        intro hmem
        rcases List.mem_append.mp hmem with hmem | hmem
        · exact hdisj e' (List.mem_cons_of_mem _ he') hmem
        · simp only [List.map_cons, List.map_nil, List.mem_singleton] at hmem
          exact hkey (hmem ▸ List.mem_map.mpr ⟨e', he', rfl⟩))]
    simp

lemma splitChar_nl_file (lines : List Str) (h : ∀ li ∈ lines, hasCh '\n' li = false) :
    splitChar '\n' (lines.foldr (fun line acc => line ++ '\n' :: acc) []) =
      lines ++ [[]] := by
  induction lines with
  | nil => rfl
  | cons li rest ih =>
    rw [List.foldr_cons, splitChar_append_sep _ _ _ (h li (List.mem_cons_self _ _)),
      ih (fun li' hli' => h li' (List.mem_cons_of_mem _ hli'))]
    rfl

/-- C6 (amended): the cache round trip `load(save(index))` reproduces the
index exactly — same keys (in the same order, hence the same key set) and,
per key, the identical value sequence — for every index whose type and
property names contain no TAB and no newline, whose key pairs are distinct
(as they are in the source `HashMap`), and whose value sequences are
non-empty with every value having a terminating decimal expansion (true of
every binary-float value). -/
theorem C6_cache_round_trip_amended (index : List ((Str × Str) × List ℚ))
    (hnd : (index.map (fun e => e.1)).Nodup)
    (hgood : ∀ e ∈ index, entryOK e) :
    loadFile (saveFile index) = some index := by
  have hlines : ∀ li ∈ saveLines index, hasCh '\n' li = false := by
    intro li hli
    rcases List.mem_map.mp hli with ⟨e, he, rfl⟩
    rcases hgood e he with ⟨_, h2, _, h4, _, _⟩
    refine (hasCh_false_iff _ _).mpr (fun c hc => ?_)
    rcases List.mem_append.mp hc with hc | hc
    · exact (hasCh_false_iff _ _).mp h2 c hc
    · rcases List.mem_cons.mp hc with rfl | hc
      · decide
      · rcases List.mem_append.mp hc with hc | hc
        · exact (hasCh_false_iff _ _).mp h4 c hc
        · rcases List.mem_cons.mp hc with rfl | hc
          · decide
          · have := (hasCh_false_iff '\n' _).mp
              (renderVec_no_ch e.2 '\n' (by decide) (by decide)) c hc
            exact this
  rw [loadFile, saveFile, splitChar_nl_file _ hlines, List.dropLast_concat,
    loadLines, loadLinesAux_saveLines index [] hnd hgood (by simp)]
  simp

/-- C6 counterexample: the claim as stated fails — an index entry with an
empty value sequence serializes to the token `"[]"`, whose bracket-stripped
content `""` fails to parse back (`"".parse::<f64>()` errors), so `load`
aborts instead of reproducing the index. -/
theorem C6_cache_round_trip_cex :
    loadFile (saveFile [((['a'], ['b']), ([] : List ℚ))]) = none := by decide

section

set_option allowUnsafeReducibility true
attribute [local semireducible] Rat.mul Rat.add Rat.sub Rat.inv

/-- Witness for the amended C6 at a concrete one-entry index with the value
`0.5` (rendered `"0.5"`, re-parsed to exactly `1/2`). -/
theorem C6_cache_round_trip_amended_witness :
    loadFile (saveFile [((['a'], ['b']), [1 / 2])]) =
      some [((['a'], ['b']), [1 / 2])] :=
  C6_cache_round_trip_amended [((['a'], ['b']), [(1 : ℚ) / 2])]
    (by decide) (by decide)

end
